import Mathlib

/-!
Shallow embedding of the XMLConverter binary codec
(`XMLConverter.js` together with `EncodeDecode/lookupTables.js`).

Modelling conventions:
* JavaScript strings are represented by their UTF-8 byte sequences
  (`List Nat`, each entry a byte value).  `TextEncoder.encode` and
  `TextDecoder.decode` then become the identity, and JS string
  truthiness (the empty string is falsy) becomes emptiness of the list.
* `Uint8Array` buffers are `List Nat`.
* The encode-side methods mutate `this.accumulator` by appending only;
  each is modelled as the byte sequence it appends.
* The decode-side methods consume a prefix of `this.binaryData`; each is
  modelled as a function from the buffer to `Except` of result and the
  remaining buffer.  The single `throw new Error(...)` in `decodeNumber`
  is the error case.
* JS 32-bit coercions (`x & y`, `x ||| y`, `<<`, `>>>`) are modelled on
  `Nat` with explicit `% 2 ^ 32` at the points where JS truncates.
-/

namespace XMLConverter

/-- lookupTables.js: `nibbleSwapTable[i] = ((i & 0x0f) << 4) | ((i & 0xf0) >> 4)`,
precomputed for `i` in `[0, 255]`; modelled as the generating function. -/
def nibbleSwapTable (i : Nat) : Nat :=
  ((i &&& 0x0f) <<< 4) ||| ((i &&& 0xf0) >>> 4)

/-- One iteration of the lookupTables.js adjacent-bit-swap inner loop:
`swapped |= (bit1 << (bit + 1)) | (bit2 << bit)` where `bit1 = (i >> bit) & 1`
and `bit2 = (i >> (bit + 1)) & 1`. -/
def adjacentBitSwapStep (i swapped bit : Nat) : Nat :=
  swapped ||| ((((i >>> bit) &&& 1) <<< (bit + 1)) ||| (((i >>> (bit + 1)) &&& 1) <<< bit))

/-- lookupTables.js: `adjacentBitSwapTable[i]`, the inner loop unrolled over
`bit = 0, 2, 4, 6`. -/
def adjacentBitSwapTable (i : Nat) : Nat :=
  adjacentBitSwapStep i (adjacentBitSwapStep i (adjacentBitSwapStep i (adjacentBitSwapStep i 0 0) 2) 4) 6

/-- `XMLConverter.nibbleSwap`: maps every byte of the buffer through
`nibbleSwapTable`. -/
def nibbleSwap (binaryData : List Nat) : List Nat :=
  binaryData.map nibbleSwapTable

/-- Decode-side failure.  `malformedVarInt` is the single
`throw new Error('Invalid binary format: incomplete number')` in
`decodeNumber`; `outOfFuel` is an artifact of modelling the unbounded JS
recursion of `decodeElement` with a fuel parameter (never reached when the
fuel exceeds the buffer length). -/
inductive DecodeError where
  | malformedVarInt
  | outOfFuel
deriving DecidableEq, Repr

/-- The do-while loop of `XMLConverter.encodeNumber` (and of the
byte-identical `encodeNumberAddtoAcc`): writes `number & 0x7f`, shifts by 7,
sets the continuation bit `0x80` when more data remains, and stops when the
number is exhausted or five bytes were written.  The source tracks the byte
count upward (`index`, loop guard `index < 5` after `index++`); here
`budget = 4 - index` counts the remaining allowed bytes downward, which is
the same guard.  The `% 2 ^ 32` reflects the JS ToInt32/ToUint32 coercions
performed by `&` and `>>>`. -/
def encodeNumberGo (number budget : Nat) : List Nat :=
  let byte := (number % 2 ^ 32) &&& 0x7f
  let number' := (number % 2 ^ 32) >>> 7
  if number' > 0 then
    match budget with
    | b + 1 => (byte ||| 0x80) :: encodeNumberGo number' b
    | 0 => [byte ||| 0x80]
  else [byte]

/-- `XMLConverter.encodeNumber`: variable-length encoding, zero fast path. -/
def encodeNumber (number : Nat) : List Nat :=
  if number = 0 then [0] else encodeNumberGo number 4

/-- `XMLConverter.encodeNumberAddtoAcc` computes exactly the same bytes as
`encodeNumber` and appends them to the accumulator; modelled as the bytes
appended. -/
def encodeNumberAddtoAcc (number : Nat) : List Nat :=
  encodeNumber number

/-- `XMLConverter.encodeStringAddToAcc`, modelled as the bytes appended to
the accumulator: optionally nibble-swapped payload, preceded by the
varint-encoded byte length.  The `if (false)` static-string branch of the
source is dead code and is omitted; the `isFixed` flag is accepted and never
read, exactly as in the source. -/
def encodeStringAddToAcc (swapEnabled : Bool) (str : List Nat) (isFixed : Bool) : List Nat :=
  let binaryData := if swapEnabled then nibbleSwap str else str
  encodeNumberAddtoAcc binaryData.length ++ binaryData

/-- The do-while loop of `XMLConverter.decodeNumber`.  The source walks
`currentIndex` through `this.binaryData` and finally slices off the consumed
prefix; here the walked-past prefix is dropped as we go, which yields the
same value and the same remaining buffer.  Reaching the end of the buffer
before a terminating byte is the `throw`; a byte with the high bit clear
terminates; otherwise the loop continues while `shift < 32`, and when that
guard fails the loop exits normally returning the accumulated number. -/
def decodeNumberGo : List Nat → Nat → Nat → Except DecodeError (Nat × List Nat)
  | [], _, _ => .error .malformedVarInt
  | byte :: rest, number, shift =>
    let number' := number ||| (((byte &&& 0x7f) <<< shift) % 2 ^ 32)
    if byte &&& 0x80 = 0 then .ok (number', rest)
    else if shift + 7 < 32 then decodeNumberGo rest number' (shift + 7)
    else .ok (number', rest)

/-- `XMLConverter.decodeNumber`: fast path when the first byte is `0`
(on an empty buffer `this.binaryData[0]` is `undefined`, which is not `=== 0`,
so the loop runs and immediately hits the bounds check). -/
def decodeNumber : List Nat → Except DecodeError (Nat × List Nat)
  | 0 :: rest => .ok (0, rest)
  | bin => decodeNumberGo bin 0 0

/-- `XMLConverter.decodeString`: reads a varint length, slices that many
bytes off the buffer (`Array.slice` silently yields fewer bytes when the
buffer is short, as does `List.take`), optionally nibble-swaps them back,
and returns them as the decoded string.  The dead `if (false)` branch and
the redundant inner `this.swapEnabled ?` test of the source collapse to the
single swap test; `isFixed` is accepted and never read. -/
def decodeString (swapEnabled : Bool) (bin : List Nat) (isFixed : Bool) :
    Except DecodeError (List Nat × List Nat) :=
  match decodeNumber bin with
  | .error e => .error e
  | .ok (length, bin') =>
    let binaryStr := bin'.take length
    let remaining := bin'.drop length
    let decodedStr := if swapEnabled then nibbleSwap binaryStr else binaryStr
    .ok (decodedStr, remaining)

/-- The tree produced by `domToJSObject` and consumed by `encodeElement`:
a JS object either of shape `{name, attrs, children}` or `{content}`. -/
inductive Node where
  | element (name : List Nat) (attrs : List (List Nat × List Nat)) (children : List Node)
  | text (content : List Nat)
deriving Repr

/-- JS truthiness of `child.name`: `undefined` on a text node, falsy on an
empty string. -/
def hasTruthyName : Node → Bool
  | .element name _ _ => !name.isEmpty
  | .text _ => false

/-- JS truthiness of `child.content`: `undefined` on an element node, falsy
on an empty string. -/
def hasTruthyContent : Node → Bool
  | .element _ _ _ => false
  | .text content => !content.isEmpty

/-- The `content` field of a node (`undefined`, here `[]`, on elements). -/
def contentOf : Node → List Nat
  | .element _ _ _ => []
  | .text content => content

/-- The attribute loop of `encodeElement`: for each `[key, value]` pair emit
the key as a fixed string and the value as a dynamic string.  (The source
guards the loop with `if (attrsLength > 0)`, which is behaviourally the
no-op it is here on the empty list.) -/
def encodeAttrsLoop (swapEnabled : Bool) : List (List Nat × List Nat) → List Nat
  | [] => []
  | (key, value) :: rest =>
    encodeStringAddToAcc swapEnabled key true ++ encodeStringAddToAcc swapEnabled value false
      ++ encodeAttrsLoop swapEnabled rest

mutual

/-- `XMLConverter.encodeElement`, modelled as the bytes appended to the
accumulator: name as fixed string, attribute count, attribute pairs, then
the children section.  Zero children emit discriminator `IS_ELEMENT = 20`
and count `0`; otherwise the discriminator is sniffed from the truthiness of
`children[0].name`, a count is emitted only under the `IS_ELEMENT`
discriminator, and the child loop runs over all children in both cases.
The `text` case is unreachable: the source only ever calls `encodeElement`
on `{name, attrs, children}` objects (the loop guard `child.name` filters). -/
def encodeElement (swapEnabled : Bool) : Node → List Nat
  | .element name attrs children =>
    encodeStringAddToAcc swapEnabled name true
      ++ encodeNumberAddtoAcc attrs.length
      ++ encodeAttrsLoop swapEnabled attrs
      ++ (match children with
          | [] => encodeNumberAddtoAcc 20 ++ encodeNumberAddtoAcc 0
          | c :: _ =>
            let childrenType := if hasTruthyName c then 20 else 10
            encodeNumberAddtoAcc childrenType
              ++ (if childrenType = 20 then encodeNumberAddtoAcc children.length else [])
              ++ encodeChildrenLoop swapEnabled children)
  | .text _ => []

/-- The child loop of `encodeElement`: an element child (truthy `name`) is
encoded recursively; a text child with truthy (non-empty) `content` is
encoded as a dynamic string; anything else is skipped. -/
def encodeChildrenLoop (swapEnabled : Bool) : List Node → List Nat
  | [] => []
  | child :: rest =>
    (if hasTruthyName child then encodeElement swapEnabled child
     else if hasTruthyContent child then encodeStringAddToAcc swapEnabled (contentOf child) false
     else [])
      ++ encodeChildrenLoop swapEnabled rest

end

/-- The attribute loop of `decodeElement`: reads `count` pairs of
fixed-key/dynamic-value strings. -/
def decodeAttrsLoop (swapEnabled : Bool) :
    Nat → List Nat → Except DecodeError (List (List Nat × List Nat) × List Nat)
  | 0, bin => .ok ([], bin)
  | count + 1, bin => do
    let (key, b1) ← decodeString swapEnabled bin true
    let (value, b2) ← decodeString swapEnabled b1 false
    let (rest, b3) ← decodeAttrsLoop swapEnabled count b2
    .ok ((key, value) :: rest, b3)

mutual

/-- `XMLConverter.decodeElement` with a fuel parameter standing in for the
unbounded JS recursion: name, attribute count, attributes, then the children
discriminator.  `IS_ELEMENT = 20` reads a child count and recursively
decodes that many children; `IS_CONTENT = 10` reads exactly one dynamic
string and wraps it as a text child; any other discriminator leaves the
children empty and consumes nothing further. -/
def decodeElementFuel (swapEnabled : Bool) : Nat → List Nat → Except DecodeError (Node × List Nat)
  | 0, _ => .error .outOfFuel
  | fuel + 1, bin => do
    let (name, b1) ← decodeString swapEnabled bin true
    let (attrCount, b2) ← decodeNumber b1
    let (attrs, b3) ← decodeAttrsLoop swapEnabled attrCount b2
    let (childrenType, b4) ← decodeNumber b3
    if childrenType = 20 then do
      let (childCount, b5) ← decodeNumber b4
      let (children, b6) ← decodeChildrenFuel swapEnabled fuel childCount b5
      .ok (.element name attrs children, b6)
    else if childrenType = 10 then do
      let (content, b5) ← decodeString swapEnabled b4 false
      .ok (.element name attrs [.text content], b5)
    else
      .ok (.element name attrs [], b4)

/-- The child loop of `decodeElement`: decodes `count` children in order.
(The source's `if (childCount > 0)` guard is the no-op it is here at 0.) -/
def decodeChildrenFuel (swapEnabled : Bool) :
    Nat → Nat → List Nat → Except DecodeError (List Node × List Nat)
  | _, 0, bin => .ok ([], bin)
  | fuel, count + 1, bin => do
    let (child, b1) ← decodeElementFuel swapEnabled fuel bin
    let (rest, b2) ← decodeChildrenFuel swapEnabled fuel count b1
    .ok (child :: rest, b2)

end

/-- `XMLConverter.decodeElement` on a whole buffer.  Every level of the JS
recursion consumes at least one byte of the buffer before recursing (the
name's length varint), so `bin.length + 1` fuel always suffices. -/
def decodeElement (swapEnabled : Bool) (bin : List Nat) : Except DecodeError (Node × List Nat) :=
  decodeElementFuel swapEnabled (bin.length + 1) bin

/-- A byte value, as stored in a `Uint8Array`. -/
def byteOk (b : Nat) : Bool := b < 256

/-- A modelled string is a genuine UTF-8 byte sequence (all entries bytes)
whose length is within the varint-safe range. -/
def strOk (s : List Nat) : Bool := s.all byteOk && decide (s.length < 2 ^ 28)

mutual

/-- Modelled from the spec: the section-3 data-model invariant exactly as
the spec states it — non-empty name, attributes a list of string pairs, and
children either empty, a single text node, or one-or-more element nodes with
no mixing.  (Standalone text nodes are not element trees.) -/
def wfOrig : Node → Bool
  | .element name _attrs children =>
    !name.isEmpty &&
      (match children with
       | [] => true
       | [.text _] => true
       | cs => wfOrigElems cs)
  | .text _ => false

/-- All members are element nodes satisfying the section-3 invariant. -/
def wfOrigElems : List Node → Bool
  | [] => true
  | c :: rest => hasTruthyName c && wfOrig c && wfOrigElems rest

end

mutual

/-- The amended well-formedness for the round trip: the section-3 invariant
plus the conditions the code forces — every string is a byte sequence of
length below `2 ^ 28` (the varint-safe range), attribute and child counts
are below `2 ^ 28`, and a lone text child has non-empty content (an empty
content field is dropped by the encoder's truthiness test and cannot be
recovered). -/
def wfNode : Node → Bool
  | .element name attrs children =>
    !name.isEmpty && strOk name && decide (attrs.length < 2 ^ 28) &&
      attrs.all (fun kv => strOk kv.1 && strOk kv.2) &&
      decide (children.length < 2 ^ 28) &&
      (match children with
       | [] => true
       | [.text content] => !content.isEmpty && strOk content
       | cs => wfElems cs)
  | .text _ => false

/-- All members are element nodes satisfying the amended invariant. -/
def wfElems : List Node → Bool
  | [] => true
  | c :: rest => hasTruthyName c && wfNode c && wfElems rest

end

set_option maxRecDepth 4096

/-! ### Lookup-table lemmas -/

theorem nibbleSwapTable_lt : ∀ b, b < 256 → nibbleSwapTable b < 256 := by decide

theorem nibbleSwapTable_invol : ∀ b, b < 256 → nibbleSwapTable (nibbleSwapTable b) = b := by
  decide

theorem adjacentBitSwapTable_lt : ∀ b, b < 256 → adjacentBitSwapTable b < 256 := by decide

theorem adjacentBitSwapTable_invol :
    ∀ b, b < 256 → adjacentBitSwapTable (adjacentBitSwapTable b) = b := by decide

theorem nibbleSwap_nibbleSwap : ∀ {s : List Nat}, s.all byteOk = true →
    nibbleSwap (nibbleSwap s) = s := by
  intro s h
  induction s with
  | nil => rfl
  | cons b rest ih =>
    simp only [List.all_cons, Bool.and_eq_true, byteOk, decide_eq_true_eq] at h
    simp only [nibbleSwap, List.map_cons, List.map_map] at ih ⊢
    rw [nibbleSwapTable_invol b h.1, ih h.2]

theorem nibbleSwap_length (s : List Nat) : (nibbleSwap s).length = s.length :=
  List.length_map s nibbleSwapTable

/-! ### Bit-arithmetic helpers -/

theorem lor_shiftLeft_eq_add {x z k : Nat} (hx : x < 2 ^ k) :
    x ||| z <<< k = x + z * 2 ^ k := by
  apply Nat.eq_of_testBit_eq
  intro i
  have hmul : z <<< k = 2 ^ k * z := by rw [Nat.shiftLeft_eq]; ring
  have hadd : x + z * 2 ^ k = 2 ^ k * z + x := by ring
  rw [Nat.testBit_or, hmul, hadd, Nat.testBit_mul_pow_two_add z hx i,
    Nat.testBit_mul_pow_two]
  rcases Nat.lt_or_ge i k with h | h
  · have h' : ¬ i ≥ k := by omega
    simp [h, h']
  · have hxb : x.testBit i = false :=
      Nat.testBit_lt_two_pow (lt_of_lt_of_le hx (Nat.pow_le_pow_right (by norm_num) h))
    have h' : ¬ i < k := by omega
    simp [h, h', hxb]

theorem and_127_eq_mod (x : Nat) : x &&& 127 = x % 128 := by
  have h := Nat.and_pow_two_sub_one_eq_mod x 7
  norm_num at h
  exact h

theorem and_128_eq_zero {x : Nat} (h : x < 128) : x &&& 128 = 0 := by
  apply Nat.eq_of_testBit_eq
  intro i
  rw [Nat.testBit_and, Nat.zero_testBit]
  rcases eq_or_ne i 7 with rfl | hne
  · have hx : x.testBit 7 = false := Nat.testBit_lt_two_pow (by omega)
    simp [hx]
  · have h128 : (128 : Nat) = 2 ^ 7 := by norm_num
    rw [h128, Nat.testBit_two_pow_of_ne (by omega)]
    simp

theorem or_128_and_128 {x : Nat} (h : x < 128) : (x ||| 128) &&& 128 = 128 := by
  rw [Nat.and_distrib_right, and_128_eq_zero h, Nat.zero_or, Nat.and_self]

theorem or_128_and_127 {x : Nat} (h : x < 128) : (x ||| 128) &&& 127 = x := by
  rw [Nat.and_distrib_right, and_127_eq_mod, Nat.mod_eq_of_lt h,
    show (128 : Nat) &&& 127 = 0 by decide, Nat.or_zero]

/-! ### VarInt round trip -/

theorem decodeNumber_eq_go (bin : List Nat) : decodeNumber bin = decodeNumberGo bin 0 0 := by
  match bin with
  | [] => rfl
  | 0 :: rest => simp [decodeNumber, decodeNumberGo]
  | (b + 1) :: rest => rfl

theorem decodeNumberGo_encodeNumberGo :
    ∀ n, 0 < n → ∀ j number rest, j ≤ 4 → n * 2 ^ (7 * j) < 2 ^ 28 → number < 2 ^ (7 * j) →
      decodeNumberGo (encodeNumberGo n (4 - j) ++ rest) number (7 * j) =
        .ok (number + n * 2 ^ (7 * j), rest) := by
  intro n
  induction n using Nat.strong_induction_on with
  | _ n IH =>
    intro hn j number rest hj hsize hnum
    have hn32 : n < 2 ^ 32 := by
      have : (2 : Nat) ^ 28 < 2 ^ 32 := by norm_num
      have h1 : n ≤ n * 2 ^ (7 * j) := Nat.le_mul_of_pos_right n (Nat.pos_pow_of_pos _ (by norm_num))
      omega
    have hmod : n % 2 ^ 32 = n := Nat.mod_eq_of_lt hn32
    rw [encodeNumberGo.eq_def]
    simp only [hmod, Nat.shiftRight_eq_div_pow]
    norm_num
    rcases Nat.lt_or_ge n 128 with hsmall | hbig
    · have hdiv : ¬ 0 < n / 128 := by
        rw [Nat.div_eq_of_lt hsmall]; omega
      rw [if_neg hdiv]
      simp only [List.cons_append, decodeNumberGo]
      have hbyte : n &&& 127 = n := by rw [and_127_eq_mod]; exact Nat.mod_eq_of_lt hsmall
      have hcond : n &&& 127 &&& 128 = 0 := by rw [hbyte]; exact and_128_eq_zero hsmall
      have hval : n &&& 127 &&& 127 = n := by rw [hbyte]; exact hbyte
      simp only [hcond, hval, List.append_eq]
      rw [if_true]
      have hshift : n <<< (7 * j) < 2 ^ 32 := by
        rw [Nat.shiftLeft_eq]
        calc n * 2 ^ (7 * j) < 2 ^ 28 := hsize
        _ < 2 ^ 32 := by norm_num
      rw [Nat.mod_eq_of_lt hshift, lor_shiftLeft_eq_add hnum]
      simp
    · have hdiv : 0 < n / 128 := Nat.div_pos hbig (by norm_num)
      rw [if_pos hdiv]
      have hj3 : j < 3 := by
        by_contra hcon
        have hj' : j = 3 ∨ j = 4 := by omega
        have : (2 : Nat) ^ 28 ≤ n * 2 ^ (7 * j) := by
          rcases hj' with rfl | rfl
          · calc (2 : Nat) ^ 28 = 128 * 2 ^ 21 := by norm_num
            _ ≤ n * 2 ^ 21 := by
                exact Nat.mul_le_mul_right _ hbig
          · calc (2 : Nat) ^ 28 ≤ 128 * 2 ^ 28 := by norm_num
            _ ≤ n * 2 ^ 28 := Nat.mul_le_mul_right _ hbig
        omega
      have h4j : 4 - j = (4 - (j + 1)) + 1 := by omega
      rw [h4j]
      simp only [List.cons_append, decodeNumberGo]
      have hmod128 : n % 128 < 128 := Nat.mod_lt _ (by norm_num)
      have hc1 : (n &&& 127 ||| 128) &&& 128 = 128 := by
        rw [and_127_eq_mod n]; exact or_128_and_128 hmod128
      have hc2 : (n &&& 127 ||| 128) &&& 127 = n % 128 := by
        rw [and_127_eq_mod n]; exact or_128_and_127 hmod128
      simp only [hc1, hc2, List.append_eq]
      have hne : ¬ (128 : Nat) = 0 := by norm_num
      rw [if_neg hne]
      have hlt32 : 7 * j + 7 < 32 := by omega
      rw [if_pos hlt32]
      have hshift : (n % 128) <<< (7 * j) < 2 ^ 32 := by
        rw [Nat.shiftLeft_eq]
        have : n % 128 * 2 ^ (7 * j) ≤ n * 2 ^ (7 * j) :=
          Nat.mul_le_mul_right _ (Nat.mod_le _ _)
        have h28 : (2 : Nat) ^ 28 < 2 ^ 32 := by norm_num
        omega
      rw [Nat.mod_eq_of_lt hshift, lor_shiftLeft_eq_add hnum]
      have hstep : 7 * j + 7 = 7 * (j + 1) := by ring
      rw [hstep]
      have hIH := IH (n / 128) (Nat.div_lt_self (by omega) (by norm_num)) hdiv (j + 1)
        (number + n % 128 * 2 ^ (7 * j)) rest (by omega)
        (by
          have : n / 128 * 2 ^ (7 * (j + 1)) ≤ n * 2 ^ (7 * j) := by
            have hpow : (2 : Nat) ^ (7 * (j + 1)) = 2 ^ (7 * j) * 128 := by
              rw [show 7 * (j + 1) = 7 * j + 7 by ring, pow_add]; norm_num
            rw [hpow]
            calc n / 128 * (2 ^ (7 * j) * 128) = n / 128 * 128 * 2 ^ (7 * j) := by ring
            _ ≤ n * 2 ^ (7 * j) := Nat.mul_le_mul_right _ (Nat.div_mul_le_self n 128)
          omega)
        (by
          have hpow : (2 : Nat) ^ (7 * (j + 1)) = 2 ^ (7 * j) * 128 := by
            rw [show 7 * (j + 1) = 7 * j + 7 by ring, pow_add]; norm_num
          have hmb : n % 128 * 2 ^ (7 * j) ≤ 127 * 2 ^ (7 * j) :=
            Nat.mul_le_mul_right _ (by omega)
          calc number + n % 128 * 2 ^ (7 * j) < 2 ^ (7 * j) + 127 * 2 ^ (7 * j) := by omega
          _ = 2 ^ (7 * j) * 128 := by ring
          _ = 2 ^ (7 * (j + 1)) := hpow.symm)
      rw [hIH]
      congr 1
      congr 1
      have hpow : (2 : Nat) ^ (7 * (j + 1)) = 2 ^ (7 * j) * 128 := by
        rw [show 7 * (j + 1) = 7 * j + 7 by ring, pow_add]; norm_num
      rw [hpow]
      have := Nat.div_add_mod n 128
      calc number + n % 128 * 2 ^ (7 * j) + n / 128 * (2 ^ (7 * j) * 128)
          = number + (n % 128 + 128 * (n / 128)) * 2 ^ (7 * j) := by ring
      _ = number + n * 2 ^ (7 * j) := by rw [Nat.mod_add_div n 128]

theorem decodeNumber_encodeNumber {n : Nat} (h : n < 2 ^ 28) (rest : List Nat) :
    decodeNumber (encodeNumber n ++ rest) = .ok (n, rest) := by
  rcases eq_or_ne n 0 with rfl | hne
  · rfl
  · rw [encodeNumber, if_neg hne, decodeNumber_eq_go]
    have h0 := decodeNumberGo_encodeNumberGo n (by omega) 0 0 rest (by omega)
      (by simpa using h) (by norm_num)
    simpa using h0

/-! ### VarInt error cases -/

theorem decodeNumberGo_allCont :
    ∀ (bin : List Nat) (number shift : Nat), (∀ b ∈ bin, b &&& 128 ≠ 0) →
      shift + 7 * bin.length < 32 →
      decodeNumberGo bin number shift = .error .malformedVarInt := by
  intro bin
  induction bin with
  | nil => intro number shift _ _; rfl
  | cons b rest ih =>
    intro number shift hcont hlen
    have hb := hcont b (List.mem_cons_self b rest)
    simp only [decodeNumberGo]
    rw [if_neg hb]
    have h7 : shift + 7 < 32 := by
      simp only [List.length_cons] at hlen; omega
    rw [if_pos h7]
    refine ih _ _ (fun x hx => hcont x (List.mem_cons_of_mem b hx)) ?_
    simp only [List.length_cons] at hlen
    omega

theorem decodeNumber_allCont {bin : List Nat} (hcont : ∀ b ∈ bin, b &&& 128 ≠ 0)
    (hlen : bin.length ≤ 4) : decodeNumber bin = .error .malformedVarInt := by
  rw [decodeNumber_eq_go]
  exact decodeNumberGo_allCont bin 0 0 hcont (by omega)

/-- Unfolding of `encodeNumberGo` with the let-bindings substituted. -/
theorem encodeNumberGo_eq (n budget : Nat) :
    encodeNumberGo n budget =
      if (n % 2 ^ 32) >>> 7 > 0 then
        match budget with
        | b + 1 => ((n % 2 ^ 32) &&& 127 ||| 128) :: encodeNumberGo ((n % 2 ^ 32) >>> 7) b
        | 0 => [(n % 2 ^ 32) &&& 127 ||| 128]
      else [(n % 2 ^ 32) &&& 127] := by
  rw [encodeNumberGo.eq_def]

theorem encodeNumberGo_length : ∀ n budget, (encodeNumberGo n budget).length ≤ budget + 1 := by
  intro n
  induction n using Nat.strong_induction_on with
  | _ n IH =>
    intro budget
    rw [encodeNumberGo_eq]
    by_cases hpos : (n % 2 ^ 32) >>> 7 > 0
    · rw [if_pos hpos]
      cases budget with
      | zero => simp
      | succ b =>
        have hlt : (n % 2 ^ 32) >>> 7 < n := by
          rw [Nat.shiftRight_eq_div_pow] at hpos ⊢
          have h1 : 0 < n % 2 ^ 32 := by
            by_contra hz
            simp only [Nat.not_lt, Nat.le_zero] at hz
            rw [hz] at hpos
            simp at hpos
          have h2 : n % 2 ^ 32 / 2 ^ 7 < n % 2 ^ 32 := Nat.div_lt_self h1 (by norm_num)
          have h3 : n % 2 ^ 32 ≤ n := Nat.mod_le _ _
          omega
        have hrec := IH _ hlt b
        simp only [List.length_cons]
        omega
    · rw [if_neg hpos]
      simp

theorem encodeNumberGo_take_cont :
    ∀ n budget k, k < (encodeNumberGo n budget).length →
      ∀ b ∈ (encodeNumberGo n budget).take k, b &&& 128 ≠ 0 := by
  intro n
  induction n using Nat.strong_induction_on with
  | _ n IH =>
    intro budget k hk b hb
    rw [encodeNumberGo_eq] at hk hb
    have hbyte : (n % 2 ^ 32) &&& 127 < 128 := by
      rw [and_127_eq_mod]
      exact Nat.mod_lt _ (by norm_num)
    by_cases hpos : (n % 2 ^ 32) >>> 7 > 0
    · rw [if_pos hpos] at hk hb
      cases budget with
      | zero =>
        simp only [List.length_singleton] at hk
        interval_cases k
        simp at hb
      | succ bud =>
        cases k with
        | zero => simp at hb
        | succ k =>
          dsimp only at hk hb
          rw [List.take_succ_cons] at hb
          rcases List.mem_cons.mp hb with rfl | hmem
          · intro hzero
            rw [or_128_and_128 hbyte] at hzero
            omega
          · refine IH _ ?_ bud k ?_ b hmem
            · rw [Nat.shiftRight_eq_div_pow] at hpos ⊢
              have h1 : 0 < n % 2 ^ 32 := by
                by_contra hz
                simp only [Nat.not_lt, Nat.le_zero] at hz
                rw [hz] at hpos
                simp at hpos
              have h2 : n % 2 ^ 32 / 2 ^ 7 < n % 2 ^ 32 := Nat.div_lt_self h1 (by norm_num)
              have h3 : n % 2 ^ 32 ≤ n := Nat.mod_le _ _
              omega
            · simp only [List.length_cons] at hk
              omega
    · rw [if_neg hpos] at hk hb
      simp only [List.length_singleton] at hk
      interval_cases k
      simp at hb

theorem decodeNumber_encodeNumber_take {n k : Nat} (hk : k < (encodeNumber n).length) :
    decodeNumber ((encodeNumber n).take k) = .error .malformedVarInt := by
  rcases eq_or_ne n 0 with rfl | hne
  · have hk0 : k = 0 := by
      simp [encodeNumber] at hk
      omega
    subst hk0
    rfl
  · rw [encodeNumber, if_neg hne] at hk ⊢
    apply decodeNumber_allCont
    · exact encodeNumberGo_take_cont n 4 k hk
    · have h5 := encodeNumberGo_length n 4
      have := List.length_take k (encodeNumberGo n 4)
      omega

/-! ### String-field round trip -/

theorem decodeString_encodeString (swapEnabled : Bool) {s : List Nat} (h : strOk s = true)
    (fx fx' : Bool) (rest : List Nat) :
    decodeString swapEnabled (encodeStringAddToAcc swapEnabled s fx ++ rest) fx' = .ok (s, rest) := by
  have hconj : s.all byteOk = true ∧ s.length < 2 ^ 28 := by
    simpa [strOk] using h
  cases swapEnabled with
  | false =>
    simp only [encodeStringAddToAcc, encodeNumberAddtoAcc, decodeString, Bool.false_eq_true,
      if_false]
    rw [List.append_assoc, decodeNumber_encodeNumber hconj.2 (s ++ rest)]
    dsimp only
    rw [List.take_left, List.drop_left]
  | true =>
    simp only [encodeStringAddToAcc, encodeNumberAddtoAcc, decodeString, if_true]
    have hlen2 : (nibbleSwap s).length = s.length := nibbleSwap_length s
    rw [List.append_assoc,
      decodeNumber_encodeNumber (by rw [hlen2]; exact hconj.2) (nibbleSwap s ++ rest)]
    dsimp only
    rw [List.take_left, List.drop_left, nibbleSwap_nibbleSwap hconj.1]

/-! ### Attribute-list round trip -/

theorem decodeAttrs_encodeAttrs (swapEnabled : Bool) :
    ∀ (attrs : List (List Nat × List Nat)) (rest : List Nat),
      attrs.all (fun kv => strOk kv.1 && strOk kv.2) = true →
      decodeAttrsLoop swapEnabled attrs.length (encodeAttrsLoop swapEnabled attrs ++ rest) =
        .ok (attrs, rest) := by
  intro attrs
  induction attrs with
  | nil => intro rest _; rfl
  | cons kv attrs ih =>
    intro rest hall
    obtain ⟨k, v⟩ := kv
    simp only [List.all_cons, Bool.and_eq_true] at hall
    simp only [encodeAttrsLoop, List.length_cons, decodeAttrsLoop]
    rw [List.append_assoc, List.append_assoc,
      decodeString_encodeString swapEnabled hall.1.1 true true _]
    dsimp only [Bind.bind, Except.bind]
    rw [decodeString_encodeString swapEnabled hall.1.2 false false _]
    dsimp only
    rw [ih _ hall.2]

/-! ### Element-level helper lemmas -/

theorem encodeNumber_length_pos (n : Nat) : 0 < (encodeNumber n).length := by
  rw [encodeNumber]
  rcases eq_or_ne n 0 with rfl | hne
  · simp
  · rw [if_neg hne, encodeNumberGo_eq]
    by_cases hpos : (n % 2 ^ 32) >>> 7 > 0
    · rw [if_pos hpos]
      cases (4 : Nat) with
      | zero => simp
      | succ b => simp
    · rw [if_neg hpos]
      simp

theorem encodeStringAddToAcc_length_pos (swapEnabled : Bool) (s : List Nat) (fx : Bool) :
    0 < (encodeStringAddToAcc swapEnabled s fx).length := by
  simp only [encodeStringAddToAcc, encodeNumberAddtoAcc, List.length_append]
  have := encodeNumber_length_pos (if swapEnabled then nibbleSwap s else s).length
  omega

theorem encodeElement_length_pos (swapEnabled : Bool) (name : List Nat)
    (attrs : List (List Nat × List Nat)) (children : List Node) :
    0 < (encodeElement swapEnabled (.element name attrs children)).length := by
  rw [encodeElement.eq_def]
  dsimp only
  simp only [List.length_append]
  have := encodeStringAddToAcc_length_pos swapEnabled name true
  omega

theorem encodeChildrenLoop_mem_le (swapEnabled : Bool) :
    ∀ (children : List Node), ∀ c ∈ children, hasTruthyName c = true →
      (encodeElement swapEnabled c).length ≤ (encodeChildrenLoop swapEnabled children).length := by
  intro children
  induction children with
  | nil => intro c hc; exact absurd hc (List.not_mem_nil c)
  | cons c0 cs ih =>
    intro c hc hname
    rw [encodeChildrenLoop]
    simp only [List.length_append]
    rcases List.mem_cons.mp hc with rfl | hmem
    · rw [if_pos hname]
      omega
    · have := ih c hmem hname
      omega

theorem wfElems_mem :
    ∀ {children : List Node}, wfElems children = true →
      ∀ c ∈ children, hasTruthyName c = true ∧ wfNode c = true := by
  intro children
  induction children with
  | nil => intro _ c hc; exact absurd hc (List.not_mem_nil c)
  | cons c0 cs ih =>
    intro hwf c hc
    rw [wfElems] at hwf
    simp only [Bool.and_eq_true] at hwf
    rcases List.mem_cons.mp hc with rfl | hmem
    · exact ⟨hwf.1.1, hwf.1.2⟩
    · exact ih hwf.2 c hmem

theorem decodeChildren_encodeChildren (swapEnabled : Bool) :
    ∀ (children : List Node) (fuel : Nat) (rest : List Nat),
      wfElems children = true →
      (∀ c ∈ children, ∀ (rest2 : List Nat) (fuel2 : Nat),
          (encodeElement swapEnabled c).length ≤ fuel2 →
          decodeElementFuel swapEnabled fuel2 (encodeElement swapEnabled c ++ rest2) =
            .ok (c, rest2)) →
      (∀ c ∈ children, (encodeElement swapEnabled c).length ≤ fuel) →
      decodeChildrenFuel swapEnabled fuel children.length
          (encodeChildrenLoop swapEnabled children ++ rest) = .ok (children, rest) := by
  intro children
  induction children with
  | nil =>
    intro fuel rest _ _ _
    rw [encodeChildrenLoop]
    simp only [List.length_nil, List.nil_append]
    rw [decodeChildrenFuel]
  | cons c0 cs ih =>
    intro fuel rest hwf hdec hfuel
    rw [wfElems] at hwf
    simp only [Bool.and_eq_true] at hwf
    rw [encodeChildrenLoop, if_pos hwf.1.1]
    rw [List.length_cons, decodeChildrenFuel, List.append_assoc]
    rw [hdec c0 (List.mem_cons_self c0 cs) _ fuel (hfuel c0 (List.mem_cons_self c0 cs))]
    dsimp only [Bind.bind, Except.bind]
    rw [ih fuel rest hwf.2 (fun c hc => hdec c (List.mem_cons_of_mem c0 hc))
      (fun c hc => hfuel c (List.mem_cons_of_mem c0 hc))]

/-! ### Element round trip -/

theorem decodeElementFuel_encodeElement (swapEnabled : Bool) :
    ∀ (N : Nat) (t : Node), sizeOf t < N → wfNode t = true →
      ∀ (rest : List Nat) (fuel : Nat), (encodeElement swapEnabled t).length ≤ fuel →
        decodeElementFuel swapEnabled fuel (encodeElement swapEnabled t ++ rest) = .ok (t, rest) := by
  intro N
  induction N with
  | zero => intro t h; omega
  | succ N IH =>
    intro t hsz hwf rest fuel hfuel
    cases t with
    | text content => simp [wfNode] at hwf
    | element name attrs children =>
      rw [wfNode.eq_def] at hwf
      dsimp only at hwf
      simp only [Bool.and_eq_true, decide_eq_true_eq] at hwf
      obtain ⟨⟨⟨⟨⟨hname, hstrname⟩, hattrlen⟩, hattrall⟩, hchildlen⟩, hmatch⟩ := hwf
      have hpos := encodeElement_length_pos swapEnabled name attrs children
      cases fuel with
      | zero => omega
      | succ f =>
        rcases children with _ | ⟨c0, cs⟩
        · -- zero children: ELEMENT discriminator with count 0
          have hbuf : encodeElement swapEnabled (.element name attrs []) ++ rest =
              encodeStringAddToAcc swapEnabled name true ++ (encodeNumber attrs.length ++
                (encodeAttrsLoop swapEnabled attrs ++ (encodeNumber 20 ++ (encodeNumber 0 ++ rest)))) := by
            rw [encodeElement.eq_def]
            dsimp only
            simp only [encodeNumberAddtoAcc, List.append_assoc]
          rw [decodeElementFuel, hbuf,
            decodeString_encodeString swapEnabled hstrname true true _]
          dsimp only [Bind.bind, Except.bind]
          rw [decodeNumber_encodeNumber hattrlen _]
          dsimp only
          rw [decodeAttrs_encodeAttrs swapEnabled attrs _ hattrall]
          dsimp only
          rw [decodeNumber_encodeNumber (show (20 : Nat) < 2 ^ 28 by norm_num) _]
          dsimp only
          rw [if_pos rfl]
          rw [decodeNumber_encodeNumber (show (0 : Nat) < 2 ^ 28 by norm_num) _]
          dsimp only
          rw [decodeChildrenFuel]
        · cases c0 with
          | text content =>
            cases cs with
            | nil =>
              -- a single text child: CONTENT discriminator, one string field
              dsimp only at hmatch
              simp only [Bool.and_eq_true] at hmatch
              have hcontent : content.isEmpty = false := by
                have h := hmatch.1
                simpa using h
              have hbuf : encodeElement swapEnabled (.element name attrs [.text content]) ++ rest =
                  encodeStringAddToAcc swapEnabled name true ++ (encodeNumber attrs.length ++
                    (encodeAttrsLoop swapEnabled attrs ++ (encodeNumber 10 ++
                      (encodeStringAddToAcc swapEnabled content false ++ rest)))) := by
                rw [encodeElement.eq_def]
                dsimp only
                simp [hcontent, encodeNumberAddtoAcc, encodeChildrenLoop, hasTruthyName,
                  hasTruthyContent, contentOf, List.append_assoc]
              rw [decodeElementFuel, hbuf,
                decodeString_encodeString swapEnabled hstrname true true _]
              dsimp only [Bind.bind, Except.bind]
              rw [decodeNumber_encodeNumber hattrlen _]
              dsimp only
              rw [decodeAttrs_encodeAttrs swapEnabled attrs _ hattrall]
              dsimp only
              rw [decodeNumber_encodeNumber (show (10 : Nat) < 2 ^ 28 by norm_num) _]
              dsimp only
              rw [if_neg (by norm_num), if_pos rfl,
                decodeString_encodeString swapEnabled hmatch.2 false false rest]
            | cons c1 cs' =>
              exfalso
              dsimp only at hmatch
              have := (wfElems_mem hmatch (.text content)
                (List.mem_cons_self _ _)).1
              simp [hasTruthyName] at this
          | element name2 attrs2 children2 =>
            dsimp only at hmatch
            -- all children are element nodes
            have hc0name : hasTruthyName (Node.element name2 attrs2 children2) = true :=
              (wfElems_mem hmatch _ (List.mem_cons_self _ _)).1
            have hbuf : encodeElement swapEnabled
                (.element name attrs (Node.element name2 attrs2 children2 :: cs)) ++ rest =
                encodeStringAddToAcc swapEnabled name true ++ (encodeNumber attrs.length ++
                  (encodeAttrsLoop swapEnabled attrs ++ (encodeNumber 20 ++
                    (encodeNumber (Node.element name2 attrs2 children2 :: cs).length ++
                      (encodeChildrenLoop swapEnabled (Node.element name2 attrs2 children2 :: cs)
                        ++ rest))))) := by
              rw [encodeElement.eq_def]
              dsimp only
              rw [if_pos hc0name, if_pos rfl]
              simp only [encodeNumberAddtoAcc, List.append_assoc]
            have hlen_t : (encodeElement swapEnabled
                (.element name attrs (Node.element name2 attrs2 children2 :: cs))).length =
                (encodeStringAddToAcc swapEnabled name true).length +
                  (encodeNumber attrs.length).length +
                  (encodeAttrsLoop swapEnabled attrs).length + (encodeNumber 20).length +
                  (encodeNumber (Node.element name2 attrs2 children2 :: cs).length).length +
                  (encodeChildrenLoop swapEnabled
                    (Node.element name2 attrs2 children2 :: cs)).length := by
              rw [encodeElement.eq_def]
              dsimp only
              rw [if_pos hc0name, if_pos rfl]
              simp only [encodeNumberAddtoAcc, List.length_append]
              omega
            rw [decodeElementFuel, hbuf,
              decodeString_encodeString swapEnabled hstrname true true _]
            dsimp only [Bind.bind, Except.bind]
            rw [decodeNumber_encodeNumber hattrlen _]
            dsimp only
            rw [decodeAttrs_encodeAttrs swapEnabled attrs _ hattrall]
            dsimp only
            rw [decodeNumber_encodeNumber (show (20 : Nat) < 2 ^ 28 by norm_num) _]
            dsimp only
            rw [if_pos rfl]
            rw [decodeNumber_encodeNumber hchildlen _]
            dsimp only
            rw [decodeChildren_encodeChildren swapEnabled _ f rest hmatch
              (fun c hc rest2 fuel2 hf2 => by
                have hmem := List.sizeOf_lt_of_mem hc
                have hszc : sizeOf c < N := by
                  have hs := hsz
                  simp only [Node.element.sizeOf_spec] at hs
                  omega
                exact IH c hszc (wfElems_mem hmatch c hc).2 rest2 fuel2 hf2)
              (fun c hc => by
                have h1 := encodeStringAddToAcc_length_pos swapEnabled name true
                have h2 := encodeChildrenLoop_mem_le swapEnabled _ c hc
                  (wfElems_mem hmatch c hc).1
                omega)]

theorem decodeElement_encodeElement (swapEnabled : Bool) (t : Node) (h : wfNode t = true)
    (rest : List Nat) :
    decodeElement swapEnabled (encodeElement swapEnabled t ++ rest) = .ok (t, rest) := by
  rw [decodeElement]
  exact decodeElementFuel_encodeElement swapEnabled (sizeOf t + 1) t (by omega) h rest _
    (by simp only [List.length_append]; omega)

/-- The child loop is the concatenation, in order, of the per-child
emissions: a recursive element encoding for a truthy-named child, one string
field for a text child with truthy (non-empty) content, nothing otherwise. -/
theorem encodeChildrenLoop_eq_flatten (swapEnabled : Bool) :
    ∀ cs : List Node,
      encodeChildrenLoop swapEnabled cs =
        (cs.map (fun c =>
          if hasTruthyName c then encodeElement swapEnabled c
          else if hasTruthyContent c then encodeStringAddToAcc swapEnabled (contentOf c) false
          else [])).flatten := by
  intro cs
  induction cs with
  | nil =>
    rw [encodeChildrenLoop]
    simp
  | cons c cs ih =>
    rw [encodeChildrenLoop]
    simp only [List.map_cons, List.flatten_cons]
    rw [ih]

/-- The child loop on a list of all-text children emits exactly one string
field per child with non-empty content, in order; empty-content children
contribute nothing. -/
theorem encodeChildrenLoop_texts (swapEnabled : Bool) :
    ∀ contents : List (List Nat),
      encodeChildrenLoop swapEnabled (contents.map .text) =
        ((contents.filter (fun c => !c.isEmpty)).map
          (fun c => encodeStringAddToAcc swapEnabled c false)).flatten := by
  intro contents
  induction contents with
  | nil =>
    rw [List.map_nil, encodeChildrenLoop]
    simp
  | cons c0 cs ih =>
    simp only [List.map_cons, List.filter_cons]
    rw [encodeChildrenLoop, if_neg (by simp [hasTruthyName])]
    by_cases hc0 : c0.isEmpty
    · rw [if_neg (by simp [hasTruthyContent, hc0]), ih]
      simp [hc0]
    · rw [if_pos (by simp [hasTruthyContent, hc0]), ih]
      simp only [hc0]
      simp [contentOf]

/-- Decoding the encoding of an element's fields followed by the ELEMENT
discriminator and a zero child count, with arbitrary trailing bytes. -/
theorem decodeElement_enc_zero_children (swapEnabled : Bool) (name : List Nat)
    (attrs : List (List Nat × List Nat)) (hstr : strOk name = true)
    (hattrs : attrs.all (fun kv => strOk kv.1 && strOk kv.2) = true)
    (hattrlen : attrs.length < 2 ^ 28) (rest : List Nat) :
    decodeElement swapEnabled
        (encodeStringAddToAcc swapEnabled name true ++ (encodeNumber attrs.length ++
          (encodeAttrsLoop swapEnabled attrs ++ (encodeNumber 20 ++ (encodeNumber 0 ++ rest))))) =
      .ok (.element name attrs [], rest) := by
  rw [decodeElement, decodeElementFuel,
    decodeString_encodeString swapEnabled hstr true true _]
  dsimp only [Bind.bind, Except.bind]
  rw [decodeNumber_encodeNumber hattrlen _]
  dsimp only
  rw [decodeAttrs_encodeAttrs swapEnabled attrs _ hattrs]
  dsimp only
  rw [decodeNumber_encodeNumber (show (20 : Nat) < 2 ^ 28 by norm_num) _]
  dsimp only
  rw [if_pos rfl]
  rw [decodeNumber_encodeNumber (show (0 : Nat) < 2 ^ 28 by norm_num) _]
  dsimp only
  rw [decodeChildrenFuel]

/-! ### Claim theorems -/

/-- C5: each of the two 256-entry lookup tables is a self-inverse
permutation of the byte values: both map every byte in [0, 255] back into
[0, 255], applying either table twice is the identity, and each table is
surjective and injective on [0, 255]. -/
theorem C5_tables_self_inverse_bijection :
    ∀ b, b < 256 →
      nibbleSwapTable b < 256 ∧ nibbleSwapTable (nibbleSwapTable b) = b ∧
      adjacentBitSwapTable b < 256 ∧ adjacentBitSwapTable (adjacentBitSwapTable b) = b ∧
      (∃ a, a < 256 ∧ nibbleSwapTable a = b) ∧
      (∃ a, a < 256 ∧ adjacentBitSwapTable a = b) ∧
      (∀ a, a < 256 → nibbleSwapTable a = nibbleSwapTable b → a = b) ∧
      (∀ a, a < 256 → adjacentBitSwapTable a = adjacentBitSwapTable b → a = b) := by
  intro b hb
  refine ⟨nibbleSwapTable_lt b hb, nibbleSwapTable_invol b hb,
    adjacentBitSwapTable_lt b hb, adjacentBitSwapTable_invol b hb,
    ⟨nibbleSwapTable b, nibbleSwapTable_lt b hb, nibbleSwapTable_invol b hb⟩,
    ⟨adjacentBitSwapTable b, adjacentBitSwapTable_lt b hb, adjacentBitSwapTable_invol b hb⟩,
    ?_, ?_⟩
  · intro a ha heq
    calc a = nibbleSwapTable (nibbleSwapTable a) := (nibbleSwapTable_invol a ha).symm
    _ = nibbleSwapTable (nibbleSwapTable b) := by rw [heq]
    _ = b := nibbleSwapTable_invol b hb
  · intro a ha heq
    calc a = adjacentBitSwapTable (adjacentBitSwapTable a) :=
        (adjacentBitSwapTable_invol a ha).symm
    _ = adjacentBitSwapTable (adjacentBitSwapTable b) := by rw [heq]
    _ = b := adjacentBitSwapTable_invol b hb

/-- Witness for C5 at the byte 97. -/
theorem C5_tables_self_inverse_bijection_witness :
    97 < 256 ∧
      (nibbleSwapTable 97 < 256 ∧ nibbleSwapTable (nibbleSwapTable 97) = 97 ∧
      adjacentBitSwapTable 97 < 256 ∧ adjacentBitSwapTable (adjacentBitSwapTable 97) = 97 ∧
      (∃ a, a < 256 ∧ nibbleSwapTable a = 97) ∧
      (∃ a, a < 256 ∧ adjacentBitSwapTable a = 97) ∧
      (∀ a, a < 256 → nibbleSwapTable a = nibbleSwapTable 97 → a = 97) ∧
      (∀ a, a < 256 → adjacentBitSwapTable a = adjacentBitSwapTable 97 → a = 97)) :=
  ⟨by decide, C5_tables_self_inverse_bijection 97 (by decide)⟩

/-- C3: for every n below 2^28, decoding the exact output of encodeNumber
returns n and consumes the whole buffer; encodeNumber 0 is the single byte
0x00, encodeNumber 127 the single byte 0x7F, and encodeNumber 128 the two
bytes 0x80 0x01. -/
theorem C3_varint_correctness :
    (∀ n, n < 2 ^ 28 → decodeNumber (encodeNumber n) = .ok (n, [])) ∧
      encodeNumber 0 = [0] ∧ encodeNumber 127 = [127] ∧ encodeNumber 128 = [128, 1] := by
  refine ⟨?_, rfl, rfl, rfl⟩
  intro n hn
  have h := decodeNumber_encodeNumber hn []
  simpa using h

/-- Witness for C3 at n = 300. -/
theorem C3_varint_correctness_witness :
    300 < 2 ^ 28 ∧ decodeNumber (encodeNumber 300) = .ok (300, []) :=
  ⟨by norm_num, C3_varint_correctness.1 300 (by norm_num)⟩

/-- C7: decodeNumber on the empty buffer fails with the malformed-varint
error rather than returning 0; more generally, any buffer of at most four
bytes all of which have the continuation bit set is exhausted while the
32-bit shift bound still holds, and decodeNumber raises that error. -/
theorem C7_varint_exhaustion_error :
    decodeNumber [] = .error .malformedVarInt ∧
      ∀ bin : List Nat, bin.length ≤ 4 → (∀ b ∈ bin, b &&& 128 ≠ 0) →
        decodeNumber bin = .error .malformedVarInt := by
  refine ⟨rfl, ?_⟩
  intro bin hlen hcont
  exact decodeNumber_allCont hcont hlen

/-- Witness for C7 on the all-continuation buffer [0x80, 0x81]. -/
theorem C7_varint_exhaustion_error_witness :
    ([128, 129] : List Nat).length ≤ 4 ∧ (∀ b ∈ ([128, 129] : List Nat), b &&& 128 ≠ 0) ∧
      decodeNumber [128, 129] = .error .malformedVarInt :=
  ⟨by decide, by decide, C7_varint_exhaustion_error.2 [128, 129] (by decide) (by decide)⟩

/-- C8: the isFixed flag is inert: encoding a string as fixed appends
exactly the bytes of encoding it as dynamic, and decodeString returns the
same result and remaining buffer regardless of the flag. -/
theorem C8_fixed_dynamic_identical (swapEnabled : Bool) (s bin : List Nat) :
    encodeStringAddToAcc swapEnabled s true = encodeStringAddToAcc swapEnabled s false ∧
      decodeString swapEnabled bin true = decodeString swapEnabled bin false :=
  ⟨rfl, rfl⟩

/-- C9: an element whose children list is exactly one text node with empty
content emits the CONTENT discriminator (10) and then no string field: the
empty content fails the truthiness test in the child loop, so the content
field is absent from the byte stream. -/
theorem C9_empty_content_dropped (swapEnabled : Bool) (name : List Nat)
    (attrs : List (List Nat × List Nat)) :
    encodeElement swapEnabled (.element name attrs [.text []]) =
      encodeStringAddToAcc swapEnabled name true ++ encodeNumberAddtoAcc attrs.length ++
        encodeAttrsLoop swapEnabled attrs ++ encodeNumberAddtoAcc 10 := by
  rw [encodeElement.eq_def]
  dsimp only
  simp [hasTruthyName, hasTruthyContent, contentOf, encodeChildrenLoop, List.append_assoc]

/-- C6: an element with an empty children list emits, after the name and
attributes, the ELEMENT discriminator 20 followed by varint 0 — both single
bytes, no distinct empty marker — and decoding that encoding reproduces the
element with an empty children list. -/
theorem C6_zero_children (swapEnabled : Bool) (name : List Nat)
    (attrs : List (List Nat × List Nat)) (hstr : strOk name = true)
    (hattrs : attrs.all (fun kv => strOk kv.1 && strOk kv.2) = true)
    (hattrlen : attrs.length < 2 ^ 28) :
    encodeElement swapEnabled (.element name attrs []) =
        encodeStringAddToAcc swapEnabled name true ++ encodeNumberAddtoAcc attrs.length ++
          encodeAttrsLoop swapEnabled attrs ++ encodeNumberAddtoAcc 20 ++
          encodeNumberAddtoAcc 0 ∧
      encodeNumberAddtoAcc 20 = [20] ∧ encodeNumberAddtoAcc 0 = [0] ∧
      decodeElement swapEnabled (encodeElement swapEnabled (.element name attrs [])) =
        .ok (.element name attrs [], []) := by
  have henc : encodeElement swapEnabled (.element name attrs []) =
      encodeStringAddToAcc swapEnabled name true ++ encodeNumberAddtoAcc attrs.length ++
        encodeAttrsLoop swapEnabled attrs ++ encodeNumberAddtoAcc 20 ++
        encodeNumberAddtoAcc 0 := by
    rw [encodeElement.eq_def]
    dsimp only
    simp [List.append_assoc]
  refine ⟨henc, rfl, rfl, ?_⟩
  have h := decodeElement_enc_zero_children swapEnabled name attrs hstr hattrs hattrlen []
  rw [henc]
  simp only [encodeNumberAddtoAcc, List.append_assoc]
  simpa using h

/-- Witness for C6 on the element named "sm" (bytes [115, 109]) with no
attributes, swapping disabled. -/
theorem C6_zero_children_witness :
    strOk [115, 109] = true ∧
      encodeElement false (.element [115, 109] [] []) =
          encodeStringAddToAcc false [115, 109] true ++ encodeNumberAddtoAcc 0 ++
            encodeAttrsLoop false [] ++ encodeNumberAddtoAcc 20 ++ encodeNumberAddtoAcc 0 ∧
        encodeNumberAddtoAcc 20 = [20] ∧ encodeNumberAddtoAcc 0 = [0] ∧
        decodeElement false (encodeElement false (.element [115, 109] [] [])) =
          .ok (.element [115, 109] [] [], []) := by
  refine ⟨by decide, ?_⟩
  have h := C6_zero_children false [115, 109] [] (by decide) (by decide) (by decide)
  simpa using h

/-- C10: when the children discriminator is neither 20 (ELEMENT) nor 10
(CONTENT), decodeElement does not raise an error: it returns the assembled
node with an empty children list and consumes no bytes beyond the
discriminator. -/
theorem C10_unknown_discriminator (swapEnabled : Bool) (name : List Nat)
    (attrs : List (List Nat × List Nat)) (d : Nat) (rest : List Nat)
    (hstr : strOk name = true)
    (hattrs : attrs.all (fun kv => strOk kv.1 && strOk kv.2) = true)
    (hattrlen : attrs.length < 2 ^ 28)
    (hd : d < 2 ^ 28) (hd20 : d ≠ 20) (hd10 : d ≠ 10) :
    decodeElement swapEnabled
        (encodeStringAddToAcc swapEnabled name true ++ (encodeNumber attrs.length ++
          (encodeAttrsLoop swapEnabled attrs ++ (encodeNumber d ++ rest)))) =
      .ok (.element name attrs [], rest) := by
  rw [decodeElement, decodeElementFuel,
    decodeString_encodeString swapEnabled hstr true true _]
  dsimp only [Bind.bind, Except.bind]
  rw [decodeNumber_encodeNumber hattrlen _]
  dsimp only
  rw [decodeAttrs_encodeAttrs swapEnabled attrs _ hattrs]
  dsimp only
  rw [decodeNumber_encodeNumber hd _]
  dsimp only
  rw [if_neg hd20, if_neg hd10]

/-- Witness for C10 with discriminator 5 and a trailing byte. -/
theorem C10_unknown_discriminator_witness :
    strOk [97] = true ∧ (5 : Nat) < 2 ^ 28 ∧ (5 : Nat) ≠ 20 ∧ (5 : Nat) ≠ 10 ∧
      decodeElement false
          (encodeStringAddToAcc false [97] true ++ (encodeNumber 0 ++
            (encodeAttrsLoop false [] ++ (encodeNumber 5 ++ [9])))) =
        .ok (.element [97] [] [], [9]) :=
  ⟨by decide, by decide, by decide, by decide,
    C10_unknown_discriminator false [97] [] 5 [9] (by decide) (by decide) (by decide)
      (by decide) (by decide) (by decide)⟩

/-- C1 counterexample: the tree with name "a" (byte [97]), no attributes and
a single empty text child satisfies the section-3 invariant exactly as
stated, yet the codec drops the empty content field on encode, and decoding
the encoding fails with the malformed-varint error instead of returning the
tree. -/
theorem C1_counterexample :
    wfOrig (.element [97] [] [.text []]) = true ∧
      decodeElement true (encodeElement true (.element [97] [] [.text []])) =
        .error .malformedVarInt ∧
      decodeElement true (encodeElement true (.element [97] [] [.text []])) ≠
        .ok (.element [97] [] [.text []], []) := by
  have henc : decodeElement true (encodeElement true (.element [97] [] [.text []])) =
      .error .malformedVarInt := by
    simp +decide [decodeElement, decodeElementFuel, decodeString, decodeNumber,
      decodeNumberGo, decodeAttrsLoop, Bind.bind, Except.bind, nibbleSwap, encodeElement,
      encodeStringAddToAcc, encodeNumberAddtoAcc, encodeNumber, encodeNumberGo,
      encodeAttrsLoop, encodeChildrenLoop, hasTruthyName, hasTruthyContent, contentOf,
      nibbleSwapTable]
  refine ⟨by simp [wfOrig], henc, ?_⟩
  rw [henc]
  intro hcontra
  exact Except.noConfusion hcontra

/-- C1 amended: for every element tree satisfying the section-3 invariants
strengthened by what the code requires — every lone text child has non-empty
content (an empty one is dropped by the encoder's truthiness test and cannot
be recovered), and string lengths and attribute/child counts stay below
2^28, the varint-safe range under the JS 32-bit coercions — decoding the
encoding yields the original tree under either swap configuration. -/
theorem C1_round_trip (swapEnabled : Bool) (t : Node) (h : wfNode t = true) :
    decodeElement swapEnabled (encodeElement swapEnabled t) = .ok (t, []) := by
  have hr := decodeElement_encodeElement swapEnabled t h []
  simpa using hr

/-- Witness for C1 on the element "a" with text content "h", swap enabled. -/
theorem C1_round_trip_witness :
    wfNode (.element [97] [] [.text [104]]) = true ∧
      decodeElement true (encodeElement true (.element [97] [] [.text [104]])) =
        .ok (.element [97] [] [.text [104]], []) :=
  ⟨by simp +decide [wfNode, strOk, byteOk],
    C1_round_trip true (.element [97] [] [.text [104]])
      (by simp +decide [wfNode, strOk, byteOk])⟩

/-- C2 counterexample: [1,97,0,10,2,104] is the proper prefix (one byte
short) of the valid encoding [1,97,0,10,2,104,105] of the element "a" with
text content "hi" (swap disabled), yet decodeElement succeeds on it and
silently returns a node whose content was truncated to "h" — no error of any
kind is raised. -/
theorem C2_counterexample :
    encodeElement false (.element [97] [] [.text [104, 105]]) =
        [1, 97, 0, 10, 2, 104, 105] ∧
      [1, 97, 0, 10, 2, 104] = List.take 6 [1, 97, 0, 10, 2, 104, 105] ∧
      decodeElement false [1, 97, 0, 10, 2, 104] =
        .ok (.element [97] [] [.text [104]], []) := by
  refine ⟨?_, rfl, ?_⟩
  · simp +decide [encodeElement, encodeStringAddToAcc, encodeNumberAddtoAcc, encodeNumber,
      encodeNumberGo, encodeAttrsLoop, encodeChildrenLoop, hasTruthyName, hasTruthyContent,
      contentOf, nibbleSwap]
  · simp +decide [decodeElement, decodeElementFuel, decodeString, decodeNumber,
      decodeNumberGo, decodeAttrsLoop, Bind.bind, Except.bind, nibbleSwap]

/-- C2 amended: truncation is detected only in varint fields: every strict
prefix of an encoded number (the empty buffer included) makes decodeNumber
fail with the malformed-varint error; string payload bytes carry no such
check — decodeString silently yields the shortened payload, so decodeElement
can return a partially populated node (see the counterexample). -/
theorem C2_varint_truncation_error (n k : Nat) (hk : k < (encodeNumber n).length) :
    decodeNumber ((encodeNumber n).take k) = .error .malformedVarInt :=
  decodeNumber_encodeNumber_take hk

/-- Witness for C2 at n = 300, k = 1. -/
theorem C2_varint_truncation_error_witness :
    1 < (encodeNumber 300).length ∧
      decodeNumber ((encodeNumber 300).take 1) = .error .malformedVarInt :=
  ⟨by decide, C2_varint_truncation_error 300 1 (by decide)⟩

/-- C4 counterexample: for the element "a" with two text children "x" and
"y" (swap disabled), the encoder emits BOTH contents after the CONTENT
discriminator — the byte stream is not the claimed single first-child field. -/
theorem C4_counterexample :
    encodeElement false (.element [97] [] [.text [120], .text [121]]) =
        [1, 97, 0, 10, 1, 120, 1, 121] ∧
      encodeElement false (.element [97] [] [.text [120], .text [121]]) ≠
        [1, 97, 0, 10, 1, 120] := by
  have henc : encodeElement false (.element [97] [] [.text [120], .text [121]]) =
      [1, 97, 0, 10, 1, 120, 1, 121] := by
    simp +decide [encodeElement, encodeStringAddToAcc, encodeNumberAddtoAcc, encodeNumber,
      encodeNumberGo, encodeAttrsLoop, encodeChildrenLoop, hasTruthyName, hasTruthyContent,
      contentOf, nibbleSwap]
  exact ⟨henc, by rw [henc]; decide⟩

/-- C4 amended: for every element whose first child is a text node — later
siblings arbitrary — encodeElement emits the CONTENT discriminator (10) with
no child count, followed by the per-child emissions of the whole children
list in order: a text child with non-empty content contributes exactly one
encoded string field, a text child with empty content contributes nothing,
and an element-named later sibling is recursively encoded in place.  So not
only the first text child is emitted; later text siblings are dropped only
by the decoder, which reads exactly one content field. -/
theorem C4_content_children_all_emitted (swapEnabled : Bool) (name : List Nat)
    (attrs : List (List Nat × List Nat)) :
    (∀ (content : List Nat) (cs : List Node),
      encodeElement swapEnabled (.element name attrs (.text content :: cs)) =
        encodeStringAddToAcc swapEnabled name true ++ encodeNumberAddtoAcc attrs.length ++
          encodeAttrsLoop swapEnabled attrs ++ encodeNumberAddtoAcc 10 ++
          ((Node.text content :: cs).map (fun c =>
            if hasTruthyName c then encodeElement swapEnabled c
            else if hasTruthyContent c then
              encodeStringAddToAcc swapEnabled (contentOf c) false
            else [])).flatten) ∧
    (∀ contents : List (List Nat), contents ≠ [] →
      encodeElement swapEnabled (.element name attrs (contents.map .text)) =
        encodeStringAddToAcc swapEnabled name true ++ encodeNumberAddtoAcc attrs.length ++
          encodeAttrsLoop swapEnabled attrs ++ encodeNumberAddtoAcc 10 ++
          ((contents.filter (fun c => !c.isEmpty)).map
            (fun c => encodeStringAddToAcc swapEnabled c false)).flatten) := by
  constructor
  · intro content cs
    rw [encodeElement.eq_def]
    dsimp only
    rw [if_neg (by simp [hasTruthyName])]
    rw [encodeChildrenLoop_eq_flatten]
    simp [List.append_assoc]
  · intro contents hne
    rcases contents with _ | ⟨c0, cs⟩
    · exact absurd rfl hne
    · rw [encodeElement.eq_def]
      dsimp only
      simp only [List.map_cons]
      rw [if_neg (by simp [hasTruthyName])]
      rw [← List.map_cons, encodeChildrenLoop_texts swapEnabled (c0 :: cs)]
      simp [List.append_assoc]

/-- Witness for C4: the mixed list [text "x", element "b"] for the first
conjunct, and the all-text list [[120], [], [121]] — with an empty-content
middle sibling — for the second. -/
theorem C4_content_children_all_emitted_witness :
    (encodeElement false (.element [97] [] [.text [120], .element [98] [] []]) =
        encodeStringAddToAcc false [97] true ++ encodeNumberAddtoAcc 0 ++
          encodeAttrsLoop false [] ++ encodeNumberAddtoAcc 10 ++
          (([Node.text [120], Node.element [98] [] []]).map (fun c =>
            if hasTruthyName c then encodeElement false c
            else if hasTruthyContent c then encodeStringAddToAcc false (contentOf c) false
            else [])).flatten) ∧
    (([[120], [], [121]] : List (List Nat)) ≠ [] ∧
      encodeElement false (.element [97] [] (([[120], [], [121]] : List (List Nat)).map .text)) =
        encodeStringAddToAcc false [97] true ++ encodeNumberAddtoAcc 0 ++
          encodeAttrsLoop false [] ++ encodeNumberAddtoAcc 10 ++
          ((([[120], [], [121]] : List (List Nat)).filter (fun c => !c.isEmpty)).map
            (fun c => encodeStringAddToAcc false c false)).flatten) :=
  ⟨(C4_content_children_all_emitted false [97] []).1 [120] [.element [98] [] []],
    by decide,
    (C4_content_children_all_emitted false [97] []).2 [[120], [], [121]] (by decide)⟩

end XMLConverter
